import Mathlib

/-!
Verification development for the `tail-latency-nats` benchmark
(`src/src/main.rs`).

We shallowly embed the program: Rust `Duration` values are modelled as
nanosecond counts (`Nat`, since `Duration` is unsigned), `u64`/`u128`
values as `Nat`, and `f64` values as `ℚ` (the values the program feeds to
the histogram are whole-millisecond counts, far below 2^53, where the
`u128 as f64` cast is exact).  Components implemented by external crates
(the `historian` histogram, the `rand_distr` alias sampler, the NATS
transport) are modelled from the specification, as marked on each
definition.
-/

namespace TailLatency

/-! ## RTT compensation (main.rs lines 84-91)

```rust
let tx_time: Duration = 2 * rtt;
let calc_elapsed = |start: Instant| {
    let mut elapsed = start.elapsed();
    if elapsed > tx_time {
        elapsed -= tx_time;
    }
    elapsed.as_millis()
};
```
`rtt` and `elapsed` are `Duration`s, modelled in nanoseconds. -/

/-- The transit overhead `tx_time = 2 * rtt` (main.rs line 84), in nanoseconds. -/
def tx_time (rtt : Nat) : Nat := 2 * rtt

/-- The compensated elapsed duration (the body of `calc_elapsed` before
`as_millis`): `if elapsed > tx_time { elapsed -= tx_time }`.  `Duration`
subtraction is only performed under the strict-greater guard, so it never
underflows. -/
def compensatedElapsed (rtt raw : Nat) : Nat :=
  let elapsed := raw
  if elapsed > tx_time rtt then elapsed - tx_time rtt else elapsed

/-- Rust `Duration::as_millis`: whole milliseconds, truncating (1 ms = 10^6 ns). -/
def duration_as_millis (ns : Nat) : Nat := ns / 1000000

/-- The full `calc_elapsed` closure: compensate, then truncate to whole
milliseconds. -/
def calc_elapsed (rtt raw : Nat) : Nat :=
  duration_as_millis (compensatedElapsed rtt raw)

/-! ## Delay table and sampler (main.rs lines 40-45)

```rust
const DELAYS: [(u64, u64); 5] = [(5, 65), (10, 25), (15, 4), (50, 3), (100, 3)];
static ref DIST: WeightedAliasIndex<u64> =
    WeightedAliasIndex::new(DELAYS.iter().map(|item| item.1).collect()).unwrap();
```
`WeightedAliasIndex` lives in the external `rand_distr` crate; its
construction and sampling behaviour are modelled from the spec. -/

/-- The fixed delay table: (delay in ms, weight) pairs. -/
def DELAYS : List (Nat × Nat) := [(5, 65), (10, 25), (15, 4), (50, 3), (100, 3)]

/-- Sum of the weights of a delay table. -/
def totalWeight (table : List (Nat × Nat)) : Nat := (table.map Prod.snd).sum

/-- Construction failure for the sampler (the spec calls it `ConfigError`). -/
inductive ConfigError where
  | invalidTable
deriving DecidableEq, Repr

/-- An alias sampler: the table it was built from and the (positive) total
weight.  Sampling is modelled as a function of a uniform draw in
`[0, total)`. -/
structure AliasSampler where
  table : List (Nat × Nat)
  total : Nat
deriving DecidableEq, Repr

/-- Modelled from the spec: `WeightedAliasIndex::new` (external `rand_distr`
crate) — "fails with `ConfigError` if table is empty or all weights are
zero"; otherwise it produces a sampler over the table. -/
def buildSampler (table : List (Nat × Nat)) : Except ConfigError AliasSampler :=
  if table = [] ∨ totalWeight table = 0 then
    .error .invalidTable
  else
    .ok ⟨table, totalWeight table⟩

/-- Index selection for a uniform draw `u`: walk the weights cumulatively.
Modelled from the spec: "returns one table entry's delay value, selected
with probability proportional to its weight, using a uniform random
source" — a uniform `u ∈ [0, totalWeight)` lands in entry `i`'s cumulative
slot with exactly `weight i` out of `totalWeight` outcomes. -/
def pickIndex (weights : List Nat) (u : Nat) : Nat :=
  match weights with
  | [] => 0
  | w :: ws => if u < w then 0 else pickIndex ws (u - w) + 1

/-- The sampler draw `DIST.sample(&mut thread_rng())` for a uniform draw `u`. -/
def AliasSampler.sampleIndex (s : AliasSampler) (u : Nat) : Nat :=
  pickIndex (s.table.map Prod.snd) u

/-- The `DIST` static, `.unwrap()`ed exactly as at main.rs line 44 (the
error branch is unreachable and modelled by a junk sampler, as `unwrap`
aborts). -/
def DIST : AliasSampler :=
  match buildSampler DELAYS with
  | .ok s => s
  | .error _ => ⟨[], 0⟩

/-- The sleep duration a responder uses (main.rs lines 76-78):
`DELAYS[DIST.sample(&mut thread_rng())].0`, for uniform draw `u`. -/
def responderDelay (u : Nat) : Nat :=
  (DELAYS.getD (DIST.sampleIndex u) (0, 0)).1

/-! ## The latency recorder (`HISTOGRAM`, main.rs lines 43, 102, 110-116)

The `Histo` type comes from the external `historian` crate.  We model it
from the spec (section 4.4): values are kept as a multiset; `percentile`
is the exact sorted-sequence estimator the spec explicitly admits ("an
exact implementation using a sorted sequence is acceptable").  `f64`
values are modelled as `ℚ`. -/

/-- Modelled from the spec: the Latency Recorder (`historian::Histo`,
external to this repository).  State: the multiset of measured values, as
a list in measurement order. -/
structure Recorder where
  samples : List ℚ
deriving DecidableEq, Repr

/-- Ingest one sample: `HISTOGRAM.measure(v)`. -/
def Recorder.measure (r : Recorder) (v : ℚ) : Recorder :=
  ⟨r.samples ++ [v]⟩

/-- Zero-based rank into the sorted samples used for `percentile p` with `n`
samples: `ceil(p/100 * n)` clamped below to 1, minus 1 (so `p = 0` gives
the minimum and `p = 100` the maximum). -/
def percentileIndex (n : Nat) (p : ℚ) : Nat :=
  max 1 (Int.toNat ⌈p * n / 100⌉) - 1

/-- Modelled from the spec: `percentile(p)` returns the sample of rank
`percentileIndex` in the sorted sequence of measured values. -/
def Recorder.percentile (r : Recorder) (p : ℚ) : ℚ :=
  (List.insertionSort (· ≤ ·) r.samples).getD (percentileIndex r.samples.length p) 0

/-! ## Result gathering (main.rs lines 109-116)

```rust
let mut data: Vec<(&str, u64)> = Vec::new();
data.push(("  min", HISTOGRAM.percentile(0.0) as u64));
for pctl in &[50., 75., 90., 95., 99.0] {
    let p = HISTOGRAM.percentile(*pctl);
    let l = format!("...", pctl);
    data.push((Box::leak(l.into_boxed_str()), p as u64));
}
data.push(("  max", HISTOGRAM.percentile(100.0) as u64));
```
-/

/-- Rust `as u64` applied to a non-negative `f64`: truncation toward zero
(= floor), saturating at 0 for negative inputs. -/
def f64_as_u64 (x : ℚ) : Nat := (⌊x⌋).toNat

/-- The label the loop formats for a whole-number percentile `p`: `p`
printed right-aligned to width 4, suffixed with `th` (so 50 becomes
`"  50th"`). -/
def fmtLabel (p : Nat) : String :=
  String.mk (List.replicate (4 - (toString p).length) ' ') ++ toString p ++ "th"

/-- The `(label, value)` table gathered after the measurement loop. -/
def gatherData (h : Recorder) : List (String × Nat) :=
  let data : List (String × Nat) := []
  let data := data ++ [("  min", f64_as_u64 (h.percentile 0))]
  let data := data ++ (([50, 75, 90, 95, 99] : List ℚ).map (fun pctl =>
    (fmtLabel (f64_as_u64 pctl), f64_as_u64 (h.percentile pctl))))
  let data := data ++ [("  max", f64_as_u64 (h.percentile 100))]
  data

/-! ## The measurement loop (main.rs lines 99-103)

```rust
for _ in 0..num_reqs {
    let start = Instant::now();
    nc.request(&svc_addr, "Hello World")?;
    HISTOGRAM.measure(calc_elapsed(start) as f64);
}
```
`nc.request` is the external transport; we model each iteration's
round-trip through an oracle `outcome : Nat → Except String Nat` giving,
per iteration index, either a transport error or success together with
the raw elapsed duration (ns) the driver observes for that round-trip. -/

/-- What the measurement loop did: the iteration indices actually issued,
in issue order; the values fed to `HISTOGRAM.measure`, in order; and the
error that aborted the loop, if any. -/
structure RunResult where
  issued : List Nat
  recorded : List Nat
  failure : Option String
deriving DecidableEq, Repr

/-- The measurement loop from iteration `i` with `n` iterations left.
Each iteration issues `nc.request(..)?`: on a transport error the `?`
operator returns from `main` at once — the iteration is not retried and
later iterations never start — and on success the driver feeds
`calc_elapsed(start)` to the histogram before the next iteration starts. -/
def driverLoop (rtt : Nat) (outcome : Nat → Except String Nat) :
    Nat → Nat → RunResult
  | _, 0 => ⟨[], [], none⟩
  | i, n + 1 =>
    match outcome i with
    | .error e => ⟨[i], [], some e⟩
    | .ok raw =>
      let rest := driverLoop rtt outcome (i + 1) n
      ⟨i :: rest.issued, calc_elapsed rtt raw :: rest.recorded, rest.failure⟩

/-- The tail of `main` from the measurement loop onward: run the `num_reqs`
iterations; only if none failed is the percentile table gathered (a `?`
failure aborts `main` with the error first, so no summary is produced). -/
def runAndSummarize (rtt n : Nat) (outcome : Nat → Except String Nat) :
    Except String (List (String × Nat)) :=
  let r := driverLoop rtt outcome 0 n
  match r.failure with
  | some e => .error e
  | none => .ok (gatherData ⟨r.recorded.map (fun v => (v : ℚ))⟩)

/-! ## Connecting (main.rs lines 53-56)

```rust
let nc = nats::connect(&args.server).unwrap_or_else(|_| {
    println!("Falling back to [demo.nats.io]");
    nats::connect("demo.nats.io").unwrap()
});
```
`nats::connect` is external; we model it as an oracle
`attempt : String → Option Nat` (`none` = connection failure, `Nat` an
opaque connection handle). -/

/-- The connect-with-fallback logic: returns the addresses tried, in
order, and the connection obtained (`none` models the final `.unwrap()`
panic, i.e. a fatal abort). -/
def connectWithFallback (attempt : String → Option Nat) (server : String) :
    List String × Option Nat :=
  match attempt server with
  | some nc => ([server], some nc)
  | none =>
    match attempt "demo.nats.io" with
    | some nc => ([server, "demo.nats.io"], some nc)
    | none => ([server, "demo.nats.io"], none)

/-! ## Responder topology (main.rs lines 68-82)

```rust
let svc_addr = nc.new_inbox();
for i in 0..args.num_replicas.get() {
    let qg = format!("qg:...", i);
    for _ in 0..args.num_responders.get() {
        nc.queue_subscribe(&svc_addr, &qg)?.with_handler(...);
    }
}
```
The code names group `i`'s queue group by rendering `i` into the string
`"qg:" ++ toString i`; since that rendering is injective in `i`, the
model carries the group index itself as the queue-group identity. -/

/-- One registered queue subscription: its subject and queue group. -/
structure Subscription where
  subject : String
  queueGroup : Nat
deriving DecidableEq, Repr

/-- The subscriptions registered by the nested loops: for each replica
group `i < numReplicas`, `numResponders` queue subscriptions on
`svcAddr`, all sharing queue group `i`.  A responder is identified by its
position in this list. -/
def setupSubscriptions (svcAddr : String) (numReplicas numResponders : Nat) :
    List Subscription :=
  (List.range numReplicas).flatMap (fun i =>
    (List.range numResponders).map (fun _ => ⟨svcAddr, i⟩))

/-- The responders (positions in the subscription list) subscribed on
`subject` under queue group `g`. -/
def memberIndices (subs : List Subscription) (subject : String) (g : Nat) :
    List Nat :=
  (List.range subs.length).filter (fun j =>
    ((subs.getD j ⟨"", 0⟩).subject == subject) &&
      ((subs.getD j ⟨"", 0⟩).queueGroup == g))

/-- The queue groups holding at least one subscription on `subject`, one
entry each. -/
def activeGroups (subs : List Subscription) (subject : String) : List Nat :=
  ((subs.filter (fun s => s.subject == subject)).map (fun s => s.queueGroup)).dedup

/-- Modelled from the spec: NATS queue-group delivery (the transport is
external to this repository) — a message on `subject` is delivered, for
each distinct queue group with a matching subscription, to exactly one of
that group's matching subscribers; which one is arbitrary, modelled by
the choice oracle `pick`.  Returns the handling responders, one per
group. -/
def deliver (subs : List Subscription) (subject : String) (pick : Nat → Nat) :
    List Nat :=
  (activeGroups subs subject).map (fun g =>
    (memberIndices subs subject g).getD
      (pick g % (memberIndices subs subject g).length) 0)

/-- One step of the reply race: the earlier-arriving of the reply seen so
far and the next reply. -/
def raceStep (arrival : Nat → Nat) (acc : Option Nat) (h : Nat) : Option Nat :=
  match acc with
  | none => some h
  | some b => if arrival h < arrival b then some h else some b

/-- Modelled from the spec: the driver's `nc.request` "receives whichever
reply arrives first, discarding the rest" — among the handling
responders, with `arrival j` the arrival time of responder `j`'s reply,
the reply kept is the earliest to arrive. -/
def firstReply (handlers : List Nat) (arrival : Nat → Nat) : Option Nat :=
  handlers.foldl (raceStep arrival) none

/-- Example round-trip oracle: iterations 0 and 1 succeed with a raw
elapsed time of 7 ms, iteration 2 fails with a transport error. -/
def exOutcome : Nat → Except String Nat :=
  fun k => if k < 2 then .ok 7000000 else .error "x"

/-- Example connect oracle: only `demo.nats.io` accepts the connection. -/
def exAttempt : String → Option Nat :=
  fun s => if s == "demo.nats.io" then some 1 else none

/-! ## Theorems -/

/-- C1: for every raw elapsed duration `raw` and transport round-trip
time `t`, the compensation step of `calc_elapsed` returns `raw - 2*t`
when `raw > 2*t` (an exact subtraction, with no underflow, as the
Int-valued conjunct shows) and returns `raw` unchanged otherwise; the
result is never negative (it is a `Nat`, and equals the Int-valued
difference in the subtraction case) and never exceeds `raw`. -/
theorem compensation_rule (raw t : Nat) :
    (raw > 2 * t → compensatedElapsed t raw = raw - 2 * t) ∧
    (¬ raw > 2 * t → compensatedElapsed t raw = raw) ∧
    (raw > 2 * t → (compensatedElapsed t raw : Int) = (raw : Int) - 2 * (t : Int)) ∧
    compensatedElapsed t raw ≤ raw := by
  have hval : compensatedElapsed t raw =
      if raw > 2 * t then raw - 2 * t else raw := rfl
  rw [hval]
  by_cases h : raw > 2 * t
  · rw [if_pos h]
    exact ⟨fun _ => rfl, fun hn => absurd h hn, fun _ => by omega, by omega⟩
  · rw [if_neg h]
    exact ⟨fun hc => absurd hc h, fun _ => rfl, fun hc => absurd hc h, Nat.le_refl _⟩

/-- Witness for C1: at `raw = 7`, `t = 2` the guard holds and the
compensated value is `7 - 4 = 3`. -/
theorem compensation_rule_witness : compensatedElapsed 2 7 = 7 - 2 * 2 :=
  (compensation_rule 7 2).1 (by decide)

/-- C10: the value fed to `HISTOGRAM.measure` is the compensated elapsed
duration truncated (floored) to whole milliseconds: it is a non-negative
integer count of milliseconds (a `Nat`), sub-millisecond precision is
discarded (the value times 10^6 ns never exceeds the compensated
duration, which falls short of the next whole millisecond). -/
theorem recorded_value_is_floored_millis (raw t : Nat) :
    calc_elapsed t raw = compensatedElapsed t raw / 1000000 ∧
    calc_elapsed t raw * 1000000 ≤ compensatedElapsed t raw ∧
    compensatedElapsed t raw < (calc_elapsed t raw + 1) * 1000000 := by
  unfold calc_elapsed duration_as_millis
  omega

/-- C3: building the sampler fails with `ConfigError` exactly when the
table is empty or all its weights are zero (for a `Nat`-weighted table,
zero total weight is the same as all weights zero), and succeeds for
every table holding at least one positive weight. -/
theorem buildSampler_fails_iff (table : List (Nat × Nat)) :
    (buildSampler table = .error .invalidTable ↔
      table = [] ∨ ∀ e ∈ table, e.2 = 0) ∧
    ((∃ e ∈ table, 0 < e.2) →
      buildSampler table = .ok ⟨table, totalWeight table⟩) := by
  have hz : totalWeight table = 0 ↔ ∀ e ∈ table, e.2 = 0 := by
    simp only [totalWeight, List.sum_eq_zero_iff, List.mem_map]
    constructor
    · intro h e he
      exact h _ ⟨e, he, rfl⟩
    · rintro h x ⟨e, he, rfl⟩
      exact h e he
  have hiff : buildSampler table = .error .invalidTable ↔
      (table = [] ∨ totalWeight table = 0) := by
    unfold buildSampler
    split
    · rename_i h
      exact iff_of_true rfl h
    · rename_i h
      exact iff_of_false (by simp) h
  constructor
  · exact hiff.trans (or_congr Iff.rfl hz)
  · rintro ⟨e, he, hpos⟩
    unfold buildSampler
    rw [if_neg]
    push_neg
    refine ⟨fun hnil => by simp [hnil] at he, fun h0 => ?_⟩
    exact absurd (hz.mp h0 e he) (by omega)

/-- Witness for C3: a table whose first weight is zero but whose second
is positive builds successfully. -/
theorem buildSampler_fails_iff_witness :
    buildSampler [(3, 0), (7, 2)] = .ok ⟨[(3, 0), (7, 2)], 2⟩ :=
  (buildSampler_fails_iff [(3, 0), (7, 2)]).2 ⟨(7, 2), by decide, by decide⟩

/-- C8: the summary table gathered after the loop is the ordered sequence
of labelled values min, 50th, 75th, 90th, 95th, 99th, max — in that
order — each value being the recorder's percentile at the corresponding
p (converted to `u64`). -/
theorem gatherData_summary (h : Recorder) :
    (gatherData h).map Prod.fst =
      ["  min", "  50th", "  75th", "  90th", "  95th", "  99th", "  max"] ∧
    (gatherData h).map Prod.snd =
      ([0, 50, 75, 90, 95, 99, 100] : List ℚ).map
        (fun p => f64_as_u64 (h.percentile p)) := by
  constructor <;> rfl

/-- C6: every draw of the sampler built over `DELAYS` selects an entry of
the table — the drawn index is in range and the drawn pair is an entry of
`DELAYS` — and the selection is proportional to weight: out of the
`totalWeight DELAYS = 100` equally likely values of the uniform source,
exactly `weight i` of them select entry `i`. -/
theorem sample_proportional :
    (∀ u : Fin (totalWeight DELAYS),
      DIST.sampleIndex u.val < DELAYS.length ∧
        DELAYS.getD (DIST.sampleIndex u.val) (0, 0) ∈ DELAYS) ∧
    (∀ i : Fin DELAYS.length,
      ((Finset.range (totalWeight DELAYS)).filter
          (fun u => DIST.sampleIndex u = i.val)).card = (DELAYS.get i).2) := by
  decide

/-- C9: every draw of `DIST` over the uniform source yields an index
strictly below `5 = DELAYS.length`, so `DELAYS[DIST.sample(..)]` never
goes out of bounds, and the resulting sleep duration is one of the five
fixed values 5, 10, 15, 50, 100 ms. -/
theorem responder_sleep_in_table :
    ∀ u : Fin (totalWeight DELAYS),
      DIST.sampleIndex u.val < 5 ∧
        responderDelay u.val ∈ ([5, 10, 15, 50, 100] : List Nat) := by
  decide

/-- C7: if connecting to the configured server succeeds, that connection
is used and only that address was tried; if it fails, exactly one
fallback to `demo.nats.io` is attempted, whose outcome is final: its
connection on success, a fatal abort (`none`, the `.unwrap()` panic) if
it fails too. -/
theorem connect_fallback (attempt : String → Option Nat) (server : String) :
    (∀ c, attempt server = some c →
      connectWithFallback attempt server = ([server], some c)) ∧
    (attempt server = none →
      connectWithFallback attempt server =
        ([server, "demo.nats.io"], attempt "demo.nats.io")) := by
  constructor
  · intro c hc
    unfold connectWithFallback
    rw [hc]
  · intro hn
    unfold connectWithFallback
    rw [hn]
    cases hd : attempt "demo.nats.io" <;> rfl

/-- Witness for C7: under an oracle where only `demo.nats.io` accepts,
connecting to `127.0.0.1` tries it, falls back once, and returns the
fallback connection. -/
theorem connect_fallback_witness :
    connectWithFallback exAttempt "127.0.0.1" =
      (["127.0.0.1", "demo.nats.io"], some 1) :=
  (connect_fallback exAttempt "127.0.0.1").2 rfl

/-- The loop always issues a contiguous increasing run of iteration
indices starting at `i`, each at most once, never more than `n` of them. -/
theorem driverLoop_issued_range (rtt : Nat) (outcome : Nat → Except String Nat) :
    ∀ n i, ∃ m ≤ n,
      (driverLoop rtt outcome i n).issued = (List.range m).map (i + ·) := by
  intro n
  induction n with
  | zero => intro i; exact ⟨0, Nat.le_refl 0, rfl⟩
  | succ n ih =>
    intro i
    show ∃ m ≤ n + 1, (driverLoop rtt outcome i (n + 1)).issued = _
    unfold driverLoop
    cases houtcome : outcome i with
    | error e =>
      refine ⟨1, by omega, ?_⟩
      simp [List.range_succ]
    | ok raw =>
      obtain ⟨m, hm, hissued⟩ := ih (i + 1)
      refine ⟨m + 1, by omega, ?_⟩
      simp only [hissued, List.range_succ_eq_map, List.map_cons, List.map_map]
      refine congrArg₂ _ (by omega) (List.map_congr_left fun k _ => ?_)
      simp [Function.comp]
      omega

/-- If every iteration in `[i, i+n)` succeeds, the loop issues all of
them in order, records one value per iteration (iteration `k` recording
`calc_elapsed` of its raw elapsed time), and ends with no failure. -/
theorem driverLoop_all_ok (rtt : Nat) (outcome : Nat → Except String Nat)
    (raws : Nat → Nat) :
    ∀ n i, (∀ k, i ≤ k → k < i + n → outcome k = .ok (raws k)) →
      driverLoop rtt outcome i n =
        ⟨(List.range n).map (i + ·),
         (List.range n).map (fun k => calc_elapsed rtt (raws (i + k))),
         none⟩ := by
  intro n
  induction n with
  | zero => intro i _; rfl
  | succ n ih =>
    intro i hok
    unfold driverLoop
    rw [hok i (Nat.le_refl i) (by omega)]
    rw [ih (i + 1) (fun k hk1 hk2 => hok k (by omega) (by omega))]
    have h1 : (List.range (n + 1)).map (i + ·) =
        i :: (List.range n).map (i + 1 + ·) := by
      rw [List.range_succ_eq_map, List.map_cons, List.map_map]
      refine congrArg₂ _ (by omega) (List.map_congr_left fun k _ => ?_)
      simp only [Function.comp_apply]
      omega
    have h2 : (List.range (n + 1)).map (fun k => calc_elapsed rtt (raws (i + k))) =
        calc_elapsed rtt (raws i) ::
          (List.range n).map (fun k => calc_elapsed rtt (raws (i + 1 + k))) := by
      rw [List.range_succ_eq_map, List.map_cons, List.map_map]
      refine congrArg₂ _ (by rw [Nat.add_zero]) (List.map_congr_left fun k _ => ?_)
      simp only [Function.comp_apply]
      refine congrArg _ (congrArg _ ?_)
      omega
    rw [h1, h2]

/-- If iteration `f` is the first to fail, the loop issues exactly
iterations `i..f` (each once, `f` not retried), records the values of the
successful iterations before `f`, and stops with the error. -/
theorem driverLoop_first_fail (rtt : Nat) (outcome : Nat → Except String Nat)
    (e : String) :
    ∀ n i f, i ≤ f → f < i + n → outcome f = .error e →
      (∀ k, i ≤ k → k < f → ∃ raw, outcome k = .ok raw) →
      (driverLoop rtt outcome i n).issued = (List.range (f + 1 - i)).map (i + ·) ∧
      (driverLoop rtt outcome i n).recorded.length = f - i ∧
      (driverLoop rtt outcome i n).failure = some e := by
  intro n
  induction n with
  | zero => intro i f h1 h2; omega
  | succ n ih =>
    intro i f h1 h2 hfail hok
    unfold driverLoop
    rcases Nat.eq_or_lt_of_le h1 with rfl | hlt
    · rw [hfail]
      refine ⟨?_, ?_, rfl⟩
      · show [i] = (List.range (i + 1 - i)).map (i + ·)
        have hi : i + 1 - i = 1 := by omega
        rw [hi]
        show [i] = [i + 0]
        rw [Nat.add_zero]
      · show ([] : List Nat).length = i - i
        simp
    · obtain ⟨raw, hraw⟩ := hok i (Nat.le_refl i) hlt
      rw [hraw]
      obtain ⟨hiss, hrec, hfailr⟩ :=
        ih (i + 1) f hlt (by omega) hfail (fun k hk1 hk2 => hok k (by omega) hk2)
      have hshift : (List.range (f + 1 - i)).map (i + ·) =
          i :: (List.range (f + 1 - (i + 1))).map (i + 1 + ·) := by
        have hsucc : f + 1 - i = (f + 1 - (i + 1)) + 1 := by omega
        rw [hsucc, List.range_succ_eq_map, List.map_cons, List.map_map]
        refine congrArg₂ _ (by omega) (List.map_congr_left fun k _ => ?_)
        simp only [Function.comp_apply]
        omega
      refine ⟨?_, ?_, hfailr⟩
      · show i :: (driverLoop rtt outcome (i + 1) n).issued = _
        rw [hiss, hshift]
      · show (calc_elapsed rtt raw ::
            (driverLoop rtt outcome (i + 1) n).recorded).length = f - i
        rw [List.length_cons, hrec]
        omega

/-- C4: the driver's round-trips are issued strictly sequentially — the
issued iteration indices are always the contiguous run 0, 1, 2, …, each
issued exactly once in increasing order.  When all `n` iterations succeed
the loop completes them all and a summary is produced; when some
iteration fails first, the loop stops at it — it is issued once (never
retried), later iterations never start — and the error propagates out of
`main`, which emits no summary. -/
theorem driver_sequential_abort (rtt n : Nat) (outcome : Nat → Except String Nat) :
    ((driverLoop rtt outcome 0 n).issued =
      List.range (driverLoop rtt outcome 0 n).issued.length) ∧
    ((∀ k < n, ∃ raw, outcome k = .ok raw) →
      (driverLoop rtt outcome 0 n).issued = List.range n ∧
      (driverLoop rtt outcome 0 n).failure = none ∧
      ∃ xs, runAndSummarize rtt n outcome = .ok xs) ∧
    (∀ f e, f < n → outcome f = .error e →
      (∀ k < f, ∃ raw, outcome k = .ok raw) →
      (driverLoop rtt outcome 0 n).issued = List.range (f + 1) ∧
      (driverLoop rtt outcome 0 n).recorded.length = f ∧
      runAndSummarize rtt n outcome = .error e) := by
  have hzero : ∀ m, (List.range m).map (0 + ·) = List.range m := by
    intro m
    refine (List.map_congr_left fun k _ => by simp).trans (List.map_id _)
  refine ⟨?_, ?_, ?_⟩
  · obtain ⟨m, _, hm⟩ := driverLoop_issued_range rtt outcome n 0
    rw [hm, hzero m]
    simp
  · intro hok
    choose raws hraws using hok
    have hrun := driverLoop_all_ok rtt outcome
      (fun k => if h : k < n then raws k h else 0) n 0
      (fun k _ hk => by
        rw [hraws k (by omega)]
        simp only [dif_pos (show k < n by omega)])
    refine ⟨?_, ?_, ?_⟩
    · rw [hrun]
      exact hzero n
    · rw [hrun]
    · unfold runAndSummarize
      have hf : (driverLoop rtt outcome 0 n).failure = none := by rw [hrun]
      simp only [hf]
      exact ⟨_, rfl⟩
  · intro f e hf hfail hok
    obtain ⟨hiss, hrec, hfailr⟩ := driverLoop_first_fail rtt outcome e n 0 f
      (by omega) (by omega) hfail (fun k _ hk2 => hok k hk2)
    refine ⟨?_, ?_, ?_⟩
    · rw [hiss]
      exact hzero (f + 1)
    · exact hrec
    · unfold runAndSummarize
      simp only [hfailr]

/-- Witness for C4: under `exOutcome` (first failure at iteration 2) a
5-request run issues iterations 0, 1, 2 only and aborts with the error,
emitting no summary. -/
theorem driver_sequential_abort_witness :
    runAndSummarize 0 5 exOutcome = .error "x" :=
  ((driver_sequential_abort 0 5 exOutcome).2.2 2 "x" (by omega) rfl
    (fun k hk => ⟨7000000, by
      have hk01 : k = 0 ∨ k = 1 := by omega
      rcases hk01 with rfl | rfl <;> rfl⟩)).2.2

/-- The percentile rank is monotone in `p`. -/
theorem percentileIndex_mono (n : Nat) {p q : ℚ} (hpq : p ≤ q) :
    percentileIndex n p ≤ percentileIndex n q := by
  unfold percentileIndex
  have h1 : ⌈p * n / 100⌉ ≤ ⌈q * n / 100⌉ := by
    apply Int.ceil_le_ceil
    have hn : (0:ℚ) ≤ n := Nat.cast_nonneg n
    gcongr
  have h2 := Int.toNat_le_toNat h1
  omega

/-- For `p ≤ 100` and a non-empty sample set, the percentile rank is in
bounds. -/
theorem percentileIndex_lt (n : Nat) (hn : 0 < n) {p : ℚ} (hp : p ≤ 100) :
    percentileIndex n p < n := by
  unfold percentileIndex
  have h1 : ⌈p * n / 100⌉ ≤ (n : ℤ) := by
    rw [Int.ceil_le]
    rw [div_le_iff (by norm_num : (0:ℚ) < 100)]
    push_cast
    calc p * n ≤ 100 * n := mul_le_mul_of_nonneg_right hp (Nat.cast_nonneg n)
    _ = n * 100 := by ring
  have h2 : Int.toNat ⌈p * n / 100⌉ ≤ n := Int.toNat_le.mpr h1
  omega

/-- In a sorted list, values at earlier in-bounds positions are no larger. -/
theorem sorted_getD_mono (l : List ℚ) (hl : List.Sorted (· ≤ ·) l) {i j : Nat}
    (hij : i ≤ j) (hj : j < l.length) : l.getD i 0 ≤ l.getD j 0 := by
  rw [List.getD_eq_get _ _ (lt_of_le_of_lt hij hj), List.getD_eq_get _ _ hj]
  exact hl.rel_get_of_le (by exact hij)

/-- C2: over any non-empty sequence of measured values the recorder's
percentile is monotone in `p` — `percentile 0 ≤ percentile 50 ≤
percentile 90 ≤ percentile 100` — it is defined with exactly one sample,
degenerating to that sample for every `p` in `[0, 100]`, and (the model
being stateless) repeated calls without intervening measurements return
the same value. -/
theorem percentile_behaviour (r : Recorder) (hne : r.samples ≠ []) :
    (r.percentile 0 ≤ r.percentile 50 ∧ r.percentile 50 ≤ r.percentile 90 ∧
      r.percentile 90 ≤ r.percentile 100) ∧
    (∀ x, r.samples = [x] → ∀ p : ℚ, 0 ≤ p → p ≤ 100 → r.percentile p = x) ∧
    (∀ p : ℚ, r.percentile p = r.percentile p) := by
  have hlen : 0 < r.samples.length := List.length_pos.mpr hne
  have hsorted : List.Sorted (· ≤ ·) (List.insertionSort (· ≤ ·) r.samples) :=
    List.sorted_insertionSort (· ≤ ·) r.samples
  have hslen : (List.insertionSort (· ≤ ·) r.samples).length = r.samples.length :=
    List.length_insertionSort (· ≤ ·) r.samples
  have hmono : ∀ p q : ℚ, p ≤ q → q ≤ 100 → r.percentile p ≤ r.percentile q := by
    intro p q hpq hq
    unfold Recorder.percentile
    refine sorted_getD_mono _ hsorted (percentileIndex_mono _ hpq) ?_
    rw [hslen]
    exact percentileIndex_lt _ hlen hq
  refine ⟨⟨hmono 0 50 (by norm_num) (by norm_num),
           hmono 50 90 (by norm_num) (by norm_num),
           hmono 90 100 (by norm_num) (by norm_num)⟩, ?_, fun p => rfl⟩
  intro x hx p hp hq
  unfold Recorder.percentile
  rw [hx]
  have hidx : percentileIndex 1 p = 0 := by
    unfold percentileIndex
    have h1 : ⌈p * (1 : Nat) / 100⌉ ≤ (1 : ℤ) := by
      rw [Int.ceil_le]
      rw [div_le_iff (by norm_num : (0:ℚ) < 100)]
      push_cast
      linarith
    have h2 : Int.toNat ⌈p * (1 : Nat) / 100⌉ ≤ 1 := Int.toNat_le.mpr h1
    omega
  simp only [List.length_singleton, hidx]
  rfl

/-- Witness for C2: on the three samples 3, 1, 2 the median lies between
the 0th and 100th percentiles, and on the single sample 7 the 50th
percentile is 7. -/
theorem percentile_behaviour_witness :
    (Recorder.mk [3, 1, 2]).percentile 0 ≤ (Recorder.mk [3, 1, 2]).percentile 50 ∧
    (Recorder.mk [7]).percentile 50 = 7 :=
  ⟨(percentile_behaviour ⟨[3, 1, 2]⟩ (by simp)).1.1,
   (percentile_behaviour ⟨[7]⟩ (by simp)).2.1 7 rfl 50 (by norm_num) (by norm_num)⟩

/-- The nested loops register `R * W` subscriptions. -/
theorem setup_length (a : String) (R W : Nat) :
    (setupSubscriptions a R W).length = R * W := by
  unfold setupSubscriptions
  induction R with
  | zero => simp
  | succ R ih =>
    rw [List.range_succ, List.flatMap_append, List.length_append, ih]
    simp [Nat.succ_mul]

/-- The registered subscriptions are exactly those on the service address
with a queue group below `R` (every group being inhabited when `W > 0`). -/
theorem mem_setup (a : String) (R W : Nat) (hW : 0 < W) (s : Subscription) :
    s ∈ setupSubscriptions a R W ↔ s.subject = a ∧ s.queueGroup < R := by
  unfold setupSubscriptions
  simp only [List.mem_flatMap, List.mem_map, List.mem_range]
  constructor
  · rintro ⟨i, hi, _, _, rfl⟩
    exact ⟨rfl, hi⟩
  · rintro ⟨hsub, hg⟩
    exact ⟨s.queueGroup, hg, 0, hW, by cases s; cases hsub; rfl⟩

/-- The subscription at position `g * W + w` belongs to group `g`. -/
theorem getD_setup (a : String) (W : Nat) :
    ∀ R g w, g < R → w < W →
      (setupSubscriptions a R W).getD (g * W + w) ⟨"", 0⟩ = ⟨a, g⟩ := by
  intro R
  induction R with
  | zero => intro g w hg; omega
  | succ R ih =>
    intro g w hg hw
    unfold setupSubscriptions
    rw [List.range_succ, List.flatMap_append]
    rcases Nat.lt_or_ge g R with hgR | hgR
    · rw [List.getD_append]
      · exact ih g w hgR hw
      · rw [show ((List.range R).flatMap fun i =>
            (List.range W).map fun _ => (⟨a, i⟩ : Subscription)) =
            setupSubscriptions a R W from rfl, setup_length]
        calc g * W + w < g * W + W := by omega
        _ = (g + 1) * W := by ring
        _ ≤ R * W := Nat.mul_le_mul_right W (by omega)
    · have hgeq : g = R := by omega
      subst hgeq
      rw [List.getD_append_right]
      · rw [show ((List.range g).flatMap fun i =>
            (List.range W).map fun _ => (⟨a, i⟩ : Subscription)) =
            setupSubscriptions a g W from rfl, setup_length,
          Nat.add_sub_cancel_left]
        simp only [List.flatMap_cons, List.flatMap_nil, List.append_nil]
        rw [List.getD_eq_getElem _ _ (by simpa using hw)]
        simp
      · rw [show ((List.range g).flatMap fun i =>
            (List.range W).map fun _ => (⟨a, i⟩ : Subscription)) =
            setupSubscriptions a g W from rfl, setup_length]
        exact Nat.le_add_right _ _

/-- Membership in a group's member list: an in-range position whose
subscription matches the subject and the group. -/
theorem mem_memberIndices (subs : List Subscription) (a : String) (g j : Nat) :
    j ∈ memberIndices subs a g ↔
      j < subs.length ∧ (subs.getD j ⟨"", 0⟩).subject = a ∧
        (subs.getD j ⟨"", 0⟩).queueGroup = g := by
  unfold memberIndices
  simp [List.mem_filter, and_assoc]

/-- With at least one responder per group, every group `g < R` has a
member: its first responder, at position `g * W`. -/
theorem memberIndices_ne_nil (a : String) (R W : Nat) (hW : 0 < W) (g : Nat)
    (hg : g < R) : memberIndices (setupSubscriptions a R W) a g ≠ [] := by
  have hmem : g * W ∈ memberIndices (setupSubscriptions a R W) a g := by
    rw [mem_memberIndices]
    have hWle : g * W + W ≤ R * W := by
      calc g * W + W = (g + 1) * W := by ring
      _ ≤ R * W := Nat.mul_le_mul_right W (by omega)
    have hgd : (setupSubscriptions a R W).getD (g * W) ⟨"", 0⟩ = ⟨a, g⟩ := by
      have := getD_setup a W R g 0 hg hW
      simpa using this
    rw [setup_length, hgd]
    exact ⟨by omega, rfl, rfl⟩
  exact List.ne_nil_of_mem hmem

/-- A queue group is active on the service address iff it is one of the
`R` groups the loops registered (given `W > 0`). -/
theorem mem_activeGroups (a : String) (R W : Nat) (hW : 0 < W) (g : Nat) :
    g ∈ activeGroups (setupSubscriptions a R W) a ↔ g < R := by
  unfold activeGroups
  rw [List.mem_dedup, List.mem_map]
  constructor
  · rintro ⟨s, hs, rfl⟩
    rw [List.mem_filter] at hs
    exact ((mem_setup a R W hW s).mp hs.1).2
  · intro hg
    refine ⟨⟨a, g⟩, ?_, rfl⟩
    rw [List.mem_filter]
    exact ⟨(mem_setup a R W hW ⟨a, g⟩).mpr ⟨rfl, hg⟩, by simp⟩

/-- Exactly `R` groups are active. -/
theorem length_activeGroups (a : String) (R W : Nat) (hW : 0 < W) :
    (activeGroups (setupSubscriptions a R W) a).length = R := by
  have hnd : (activeGroups (setupSubscriptions a R W) a).Nodup :=
    List.nodup_dedup _
  have hfs : (activeGroups (setupSubscriptions a R W) a).toFinset =
      Finset.range R := by
    ext g
    rw [List.mem_toFinset, Finset.mem_range]
    exact mem_activeGroups a R W hW g
  calc (activeGroups (setupSubscriptions a R W) a).length
      = (activeGroups (setupSubscriptions a R W) a).toFinset.card :=
        (List.toFinset_card_of_nodup hnd).symm
  _ = R := by rw [hfs, Finset.card_range]

/-- The member each group delivers to is one of that group's members. -/
theorem chosen_mem (subs : List Subscription) (a : String) (g : Nat)
    (pick : Nat → Nat) (hne : memberIndices subs a g ≠ []) :
    (memberIndices subs a g).getD
        (pick g % (memberIndices subs a g).length) 0 ∈ memberIndices subs a g := by
  have hlen : 0 < (memberIndices subs a g).length := List.length_pos.mpr hne
  rw [List.getD_eq_getElem _ _ (Nat.mod_lt _ hlen)]
  exact List.getElem_mem _

/-- In a duplicate-free list, filtering for equality with `g` keeps one
element when `g` occurs and none otherwise. -/
theorem filter_beq_length_nodup :
    ∀ {l : List Nat}, l.Nodup → ∀ g : Nat,
      (l.filter (· == g)).length = if g ∈ l then 1 else 0 := by
  intro l
  induction l with
  | nil => intro _ g; simp
  | cons b t ih =>
    intro hnd g
    rw [List.nodup_cons] at hnd
    rcases hnd with ⟨hbt, hnd⟩
    by_cases hbg : b = g
    · subst hbg
      simp [List.filter_cons, ih hnd, hbt]
    · simp only [List.filter_cons, List.mem_cons]
      rw [if_neg (by simpa using hbg), ih hnd g]
      have : ¬ g = b := fun h => hbg h.symm
      simp [this]

/-- Folding the reply race from an initial reply yields the earliest
arrival among the initial reply and the rest. -/
theorem raceFold_min (arrival : Nat → Nat) :
    ∀ (l : List Nat) (b : Nat),
      ∃ h, l.foldl (raceStep arrival) (some b) = some h ∧
        (h = b ∨ h ∈ l) ∧ arrival h ≤ arrival b ∧
        ∀ x ∈ l, arrival h ≤ arrival x := by
  intro l
  induction l with
  | nil => intro b; exact ⟨b, rfl, Or.inl rfl, Nat.le_refl _, by simp⟩
  | cons c t ih =>
    intro b
    have hstep : raceStep arrival (some b) c =
        some (if arrival c < arrival b then c else b) := by
      by_cases hc : arrival c < arrival b <;> simp [raceStep, hc]
    rw [List.foldl_cons, hstep]
    obtain ⟨h, hfold, hmem, hle, hall⟩ := ih (if arrival c < arrival b then c else b)
    refine ⟨h, hfold, ?_, ?_, ?_⟩
    · rcases hmem with rfl | hm
      · by_cases hc : arrival c < arrival b <;> simp [hc]
      · simp [hm]
    · calc arrival h ≤ arrival (if arrival c < arrival b then c else b) := hle
      _ ≤ arrival b := by split <;> omega
    · intro x hx
      rcases List.mem_cons.mp hx with rfl | hxt
      · calc arrival h ≤ arrival (if arrival x < arrival b then x else b) := hle
        _ ≤ arrival x := by split <;> omega
      · exact hall x hxt

/-- On any non-empty set of handlers, the race returns a handler whose
reply arrives no later than any other handler's reply. -/
theorem firstReply_min (handlers : List Nat) (arrival : Nat → Nat)
    (hne : handlers ≠ []) :
    ∃ h, firstReply handlers arrival = some h ∧ h ∈ handlers ∧
      ∀ x ∈ handlers, arrival h ≤ arrival x := by
  obtain ⟨b, t, rfl⟩ := List.exists_cons_of_ne_nil hne
  obtain ⟨h, hfold, hmem, hle, hall⟩ := raceFold_min arrival t b
  refine ⟨h, ?_, ?_, ?_⟩
  · show (b :: t).foldl (raceStep arrival) none = some h
    rw [List.foldl_cons]
    exact hfold
  · rcases hmem with rfl | hm
    · exact List.mem_cons_self _ _
    · exact List.mem_cons_of_mem _ hm
  · intro x hx
    rcases List.mem_cons.mp hx with rfl | hxt
    · exact hle
    · exact hall x hxt

/-- C5: with `R` replica groups of `W` responders each registered on the
service address, delivering one inbound request hands it to exactly `R`
responders — all of them registered on that address — with, for each of
the `R` groups, exactly one of that group's responders handling it (and
no responder of any other group); and the driver's request call returns
the reply arriving first among those handlers, the rest being discarded. -/
theorem replica_group_racing (a : String) (R W : Nat) (hR : 0 < R) (hW : 0 < W)
    (pick arrival : Nat → Nat) :
    (deliver (setupSubscriptions a R W) a pick).length = R ∧
    (∀ j ∈ deliver (setupSubscriptions a R W) a pick,
      j < (setupSubscriptions a R W).length ∧
      ((setupSubscriptions a R W).getD j ⟨"", 0⟩).subject = a) ∧
    (∀ g, ((deliver (setupSubscriptions a R W) a pick).filter
        (fun j => ((setupSubscriptions a R W).getD j ⟨"", 0⟩).queueGroup == g)).length
      = if g < R then 1 else 0) ∧
    (∃ h, firstReply (deliver (setupSubscriptions a R W) a pick) arrival = some h ∧
      h ∈ deliver (setupSubscriptions a R W) a pick ∧
      ∀ x ∈ deliver (setupSubscriptions a R W) a pick, arrival h ≤ arrival x) := by
  have hchosen : ∀ g, g ∈ activeGroups (setupSubscriptions a R W) a →
      (fun g => (memberIndices (setupSubscriptions a R W) a g).getD
        (pick g % (memberIndices (setupSubscriptions a R W) a g).length) 0) g
        ∈ memberIndices (setupSubscriptions a R W) a g := by
    intro g hg
    exact chosen_mem _ _ _ _
      (memberIndices_ne_nil a R W hW g ((mem_activeGroups a R W hW g).mp hg))
  have hlen : (deliver (setupSubscriptions a R W) a pick).length = R := by
    unfold deliver
    rw [List.length_map, length_activeGroups a R W hW]
  refine ⟨hlen, ?_, ?_, ?_⟩
  · intro j hj
    unfold deliver at hj
    rw [List.mem_map] at hj
    obtain ⟨g, hg, rfl⟩ := hj
    have := (mem_memberIndices _ _ _ _).mp (hchosen g hg)
    exact ⟨this.1, this.2.1⟩
  · intro g
    unfold deliver
    rw [List.filter_map, List.length_map]
    have hcongr : List.filter
        ((fun j => ((setupSubscriptions a R W).getD j ⟨"", 0⟩).queueGroup == g) ∘
          (fun g' => (memberIndices (setupSubscriptions a R W) a g').getD
            (pick g' % (memberIndices (setupSubscriptions a R W) a g').length) 0))
        (activeGroups (setupSubscriptions a R W) a) =
        List.filter (· == g) (activeGroups (setupSubscriptions a R W) a) := by
      apply List.filter_congr
      intro g' hg'
      have hmm := (mem_memberIndices _ _ _ _).mp (hchosen g' hg')
      simp only [Function.comp_apply, hmm.2.2]
    rw [hcongr]
    have hnd : (activeGroups (setupSubscriptions a R W) a).Nodup :=
      List.nodup_dedup _
    rw [filter_beq_length_nodup hnd g]
    by_cases hgR : g < R
    · rw [if_pos ((mem_activeGroups a R W hW g).mpr hgR), if_pos hgR]
    · rw [if_neg (fun hmem => hgR ((mem_activeGroups a R W hW g).mp hmem)),
        if_neg hgR]
  · have hne : deliver (setupSubscriptions a R W) a pick ≠ [] := by
      intro hnil
      rw [hnil] at hlen
      simp at hlen
      omega
    exact firstReply_min _ arrival hne

/-- Witness for C5: two replica groups of three responders each yield
exactly two handlers for a request. -/
theorem replica_group_racing_witness :
    (deliver (setupSubscriptions "svc" 2 3) "svc" (fun g => g)).length = 2 :=
  (replica_group_racing "svc" 2 3 (by decide) (by decide)
    (fun g => g) (fun j => j)).1

end TailLatency
